import Mathlib

/-!
Verification development for the yup data-model core: DataTree, Transaction,
UndoManager, listener notification and JSON serialization.

The data model and operations are modelled from the specification (the core
itself is a native library; only its Python test suite ships with the sources
here). Every definition below carries a doc comment naming the spec clause it
embeds. Machine details with no observable role in the modelled behaviour are
kept abstract: the Float64 payload of a Value is carried as its 64-bit pattern
(no float arithmetic occurs anywhere in the modelled operations), and listener
fan-out is modelled by the ordered list of notification events a mutation
emits (every registered listener receives every event, synchronously).
-/

namespace Yup

/-- Modelled from the spec: Value is a tagged union
{Null, Bool, Int64, Float64, String, Bytes}; equality is value-based.
The Float64 payload is its 64-bit pattern, opaque here; Int64 is carried as
an integer since no arithmetic is performed on stored values. -/
inductive Value where
  | null
  | bool (b : Bool)
  | int (n : Int)
  | float (bits : Nat)
  | str (s : String)
  | bytes (bs : List Nat)
  deriving DecidableEq

/-- Modelled from the spec: a DataTree node is a type Identifier, an ordered
property map (insertion order preserved) and an ordered child sequence.
The parent back-reference is non-owning and derivable from the enclosing
tree, so the value-level model keeps only the owned data. The invalid
sentinel is a separate wrapper (`DataTree`) below. -/
inductive Node where
  | mk (ty : String) (props : List (String × Value)) (children : List Node)

/-- The node's type identifier string. -/
def Node.type : Node → String
  | .mk t _ _ => t

/-- The node's ordered property map. -/
def Node.props : Node → List (String × Value)
  | .mk _ p _ => p

/-- The node's ordered child list. -/
def Node.children : Node → List Node
  | .mk _ _ c => c

theorem Node.eta : ∀ t : Node, Node.mk t.type t.props t.children = t
  | .mk _ _ _ => rfl

mutual

/-- Structural boolean equality on nodes (type, properties, children). -/
def Node.beq : Node → Node → Bool
  | .mk ty ps cs, .mk ty2 ps2 cs2 => ty == ty2 && ps == ps2 && Node.beqList cs cs2

/-- Structural boolean equality on child lists. -/
def Node.beqList : List Node → List Node → Bool
  | [], [] => true
  | c :: r, c2 :: r2 => Node.beq c c2 && Node.beqList r r2
  | _, _ => false

end

mutual

theorem Node.beq_iff : ∀ a b : Node, Node.beq a b = true ↔ a = b
  | .mk ty ps cs, .mk ty2 ps2 cs2 => by
    simp [Node.beq, Node.beqList_iff cs cs2, and_assoc]

theorem Node.beqList_iff : ∀ a b : List Node, Node.beqList a b = true ↔ a = b
  | [], [] => by simp [Node.beqList]
  | [], _ :: _ => by simp [Node.beqList]
  | _ :: _, [] => by simp [Node.beqList]
  | c :: r, c2 :: r2 => by
    simp [Node.beqList, Node.beq_iff c c2, Node.beqList_iff r r2]

end

instance : DecidableEq Node := fun a b => decidable_of_iff _ (Node.beq_iff a b)

/-- Modelled from the spec: a distinguished invalid/null DataTree is a
sentinel distinct from a valid tree; read accessors on it return defaults. -/
inductive DataTree where
  | invalid
  | valid (n : Node)
  deriving DecidableEq

/-- isValid distinguishes a real node from the invalid sentinel. -/
def DataTree.isValid : DataTree → Bool
  | .invalid => false
  | .valid _ => true

/-- Number of direct children. -/
def Node.numChildren (t : Node) : Nat := t.children.length

/-- Number of properties. -/
def Node.numProperties (t : Node) : Nat := t.props.length

/-- Modelled from the spec: getProperty on an ordered property map returns
the stored Value of the first (unique) matching key, or a distinguishable
missing result. -/
def getProp (key : String) : List (String × Value) → Option Value
  | [] => none
  | (k, v) :: rest => if k = key then some v else getProp key rest

/-- Modelled from the spec: setting a property replaces the value in place
when the key is present (insertion order preserved) and appends a new entry
otherwise. -/
def setProp (key : String) (v : Value) : List (String × Value) → List (String × Value)
  | [] => [(key, v)]
  | (k, w) :: rest => if k = key then (k, v) :: rest else (k, w) :: setProp key v rest

/-- Removing a property deletes its (unique) entry, keeping the others in
order. Used by the inverse of a setProperty whose key was absent. -/
def eraseProp (key : String) : List (String × Value) → List (String × Value)
  | [] => []
  | (k, w) :: rest => if k = key then rest else (k, w) :: eraseProp key rest

/-- hasProperty of the Python API. -/
def Node.hasProperty (t : Node) (key : String) : Bool := (getProp key t.props).isSome

/-- getChild returns the invalid sentinel out of range (the error taxonomy
reports IndexOutOfRange for mutating accesses; reads stay branch-free). -/
def Node.getChild (t : Node) (i : Nat) : DataTree :=
  match t.children[i]? with
  | some c => .valid c
  | none => .invalid

theorem eraseProp_setProp_of_absent (key : String) (v : Value) :
    ∀ ps : List (String × Value), getProp key ps = none →
      eraseProp key (setProp key v ps) = ps := by
  intro ps
  induction ps with
  | nil => intro _; simp [setProp, eraseProp]
  | cons head rest ih =>
    intro h
    obtain ⟨k, w⟩ := head
    by_cases hk : k = key
    · simp [getProp, hk] at h
    · simp [getProp, hk] at h
      simp [setProp, eraseProp, hk, ih h]

theorem setProp_setProp_of_present (key : String) (v w : Value) :
    ∀ ps : List (String × Value), getProp key ps = some w →
      setProp key w (setProp key v ps) = ps := by
  intro ps
  induction ps with
  | nil => intro h; simp [getProp] at h
  | cons head rest ih =>
    intro h
    obtain ⟨k, u⟩ := head
    by_cases hk : k = key
    · simp [getProp, hk] at h
      simp [setProp, hk, h]
    · simp [getProp, hk] at h
      simp [setProp, hk, ih h]

theorem insertIdx_eraseIdx_self {α : Type} (c : α) :
    ∀ (l : List α) (i : Nat), l[i]? = some c → (l.eraseIdx i).insertIdx i c = l := by
  intro l
  induction l with
  | nil => intro i h; simp at h
  | cons a rest ih =>
    intro i h
    cases i with
    | zero =>
      simp at h
      simp [List.eraseIdx, List.insertIdx, h]
    | succ n =>
      rw [List.getElem?_cons_succ] at h
      simp [List.eraseIdx, List.insertIdx_succ_cons, ih n h]

theorem insertIdx_perm {α : Type} (c : α) :
    ∀ (l : List α) (i : Nat), i ≤ l.length → List.Perm (l.insertIdx i c) (c :: l) := by
  intro l
  induction l with
  | nil =>
    intro i h
    cases Nat.le_zero.mp h
    simp
  | cons a rest ih =>
    intro i h
    cases i with
    | zero => simp
    | succ n =>
      simp only [List.length_cons, Nat.succ_le_succ_iff] at h
      rw [List.insertIdx_succ_cons]
      exact ((ih n h).cons a).trans (List.Perm.swap c a rest)

theorem eraseIdx_perm {α : Type} (c : α) :
    ∀ (l : List α) (i : Nat), l[i]? = some c → List.Perm l (c :: l.eraseIdx i) := by
  intro l
  induction l with
  | nil => intro i h; simp at h
  | cons a rest ih =>
    intro i h
    cases i with
    | zero =>
      simp at h
      simp [List.eraseIdx, h]
    | succ n =>
      rw [List.getElem?_cons_succ] at h
      rw [List.eraseIdx_cons_succ]
      exact ((ih n h).cons a).trans (List.Perm.swap c a _)

/-- Modelled from the spec: moveChild(i, j) removes the child at index i and
re-inserts the same node at index j; child identity, not a copy, moves. -/
def moveIdx {α : Type} (i j : Nat) (l : List α) : List α :=
  match l[i]? with
  | none => l
  | some x => (l.eraseIdx i).insertIdx j x

theorem moveIdx_length {α : Type} (l : List α) (i j : Nat)
    (hi : i < l.length) (hj : j < l.length) : (moveIdx i j l).length = l.length := by
  have hx := List.getElem?_eq_getElem hi
  rw [moveIdx, hx]
  have he : (l.eraseIdx i).length = l.length - 1 := by
    rw [List.length_eraseIdx, if_pos hi]
  rw [List.length_insertIdx j _ (by omega : j ≤ (l.eraseIdx i).length), he]
  omega

theorem moveIdx_perm {α : Type} (l : List α) (i j : Nat)
    (hi : i < l.length) (hj : j < l.length) : List.Perm (moveIdx i j l) l := by
  have hx := List.getElem?_eq_getElem hi
  rw [moveIdx, hx]
  have he : (l.eraseIdx i).length = l.length - 1 := by
    rw [List.length_eraseIdx, if_pos hi]
  have h1 := insertIdx_perm (l[i]) (l.eraseIdx i) j (by omega)
  have h2 := eraseIdx_perm (l[i]) l i hx
  exact h1.trans h2.symm

theorem moveIdx_moveIdx {α : Type} (l : List α) (i j : Nat)
    (hi : i < l.length) (hj : j < l.length) : moveIdx j i (moveIdx i j l) = l := by
  have hx := List.getElem?_eq_getElem hi
  have he : (l.eraseIdx i).length = l.length - 1 := by
    rw [List.length_eraseIdx, if_pos hi]
  have hj2 : j ≤ (l.eraseIdx i).length := by omega
  have hlen : j < ((l.eraseIdx i).insertIdx j (l[i])).length := by
    rw [List.length_insertIdx j _ hj2]
    omega
  have hq : ((l.eraseIdx i).insertIdx j (l[i]))[j]? = some (l[i]) := by
    rw [List.getElem?_eq_getElem hlen, List.getElem_insertIdx_self _ _ j hj2]
  have hinner : moveIdx i j l = (l.eraseIdx i).insertIdx j (l[i]) := by
    rw [moveIdx, hx]
  rw [hinner, moveIdx, hq, List.eraseIdx_insertIdx]
  exact insertIdx_eraseIdx_self (l[i]) l i hx

/-- Replace a node's property map, keeping type and children. -/
def Node.withProps (t : Node) (ps : List (String × Value)) : Node :=
  .mk t.type ps t.children

/-- Replace a node's child list, keeping type and properties. -/
def Node.withChildren (t : Node) (cs : List Node) : Node :=
  .mk t.type t.props cs

/-- Modelled from the spec: moveChild(i, j) reorders the target's children. -/
def Node.moveChild (i j : Nat) (t : Node) : Node :=
  t.withChildren (moveIdx i j t.children)

/-- Modelled from the spec: the operations a Transaction stages against its
target node: SetProperty(key, new), AddChild(node, index, default end),
RemoveChild(index), MoveChild(from, to). -/
inductive Op where
  | setProperty (key : String) (v : Value)
  | addChild (n : Node) (idx : Option Nat)
  | removeChild (idx : Nat)
  | moveChild (src dst : Nat)
  deriving DecidableEq

/-- Modelled from the spec: a staged operation with the data captured for its
inverse: SetProperty keeps the prior value (or "absent"), RemoveChild retains
the removed subtree and the vacated index, AddChild the insertion index,
MoveChild both indices (and a snapshot of the moved child, for the
notification payload). -/
inductive StagedOp where
  | setProperty (key : String) (newVal : Value) (oldVal : Option Value)
  | addChild (n : Node) (idx : Nat)
  | removeChild (idx : Nat) (removed : Node)
  | moveChild (src dst : Nat) (moved : Node)
  deriving DecidableEq

/-- Modelled from the spec: exactly three notification shapes exist -
propertyChanged(tree, key), childAdded(parent, child),
childRemoved(parent, child, formerIndex). No bulk or batch event exists. -/
inductive Event where
  | propertyChanged (tree : Node) (key : String)
  | childAdded (parent : Node) (child : Node)
  | childRemoved (parent : Node) (child : Node) (formerIndex : Nat)
  deriving DecidableEq

/-- Modelled from the spec: staging one operation applies it optimistically
to the live node and captures the inverse data. addChild out of range,
removeChild and moveChild on a bad index fail (IndexOutOfRange), mirroring
the fail-fast error design; failure stages nothing. -/
def stageOp (t : Node) : Op → Option (Node × StagedOp)
  | .setProperty key v =>
    some (t.withProps (setProp key v t.props), .setProperty key v (getProp key t.props))
  | .addChild n idxOpt =>
    let idx := idxOpt.getD t.children.length
    if idx ≤ t.children.length then
      some (t.withChildren (t.children.insertIdx idx n), .addChild n idx)
    else none
  | .removeChild idx =>
    match t.children[idx]? with
    | some c => some (t.withChildren (t.children.eraseIdx idx), .removeChild idx c)
    | none => none
  | .moveChild src dst =>
    match t.children[src]? with
    | some c =>
      if dst < t.children.length then
        some (t.withChildren (moveIdx src dst t.children), .moveChild src dst c)
      else none
    | none => none

/-- Modelled from the spec: the inverse of a staged operation, replayed on
the live node by abort and by undo. A setProperty whose key was absent is
reversed by removing the key; one whose key was present restores the prior
value. -/
def applyUndo (t : Node) : StagedOp → Node
  | .setProperty key _ oldVal =>
    match oldVal with
    | some w => t.withProps (setProp key w t.props)
    | none => t.withProps (eraseProp key t.props)
  | .addChild _ idx => t.withChildren (t.children.eraseIdx idx)
  | .removeChild idx c => t.withChildren (t.children.insertIdx idx c)
  | .moveChild src dst _ => t.withChildren (moveIdx dst src t.children)

/-- Modelled from the spec: the forward replay of a staged operation, used by
redo to reapply a popped group. -/
def applyRedo (t : Node) : StagedOp → Node
  | .setProperty key v _ => t.withProps (setProp key v t.props)
  | .addChild n idx => t.withChildren (t.children.insertIdx idx n)
  | .removeChild idx _ => t.withChildren (t.children.eraseIdx idx)
  | .moveChild src dst _ => t.withChildren (moveIdx src dst t.children)

/-- Modelled from the spec: the notification a forward operation emits, with
`live` the tree the listener observes. The spec leaves the moveChild
notification shape open (one of the three shapes, implementation-defined);
this model picks a single childAdded(parent, movedChild), which keeps the
mandated one-notification-per-staged-operation accounting. -/
def eventOfRedo (live : Node) : StagedOp → Event
  | .setProperty key _ _ => .propertyChanged live key
  | .addChild n _ => .childAdded live n
  | .removeChild idx c => .childRemoved live c idx
  | .moveChild _ _ c => .childAdded live c

/-- Modelled from the spec: the notification an inverse operation emits
during undo - it goes through the same apply+notify path, so reversing a
setProperty reports propertyChanged (also when the reversal removes the
key), reversing an addChild reports childRemoved, and reversing a
removeChild reports childAdded. -/
def eventOfUndo (live : Node) : StagedOp → Event
  | .setProperty key _ _ => .propertyChanged live key
  | .addChild n idx => .childRemoved live n idx
  | .removeChild _ c => .childAdded live c
  | .moveChild _ _ c => .childAdded live c

/-- Staging a whole operation list in order (optimistic apply). -/
def stageOps (t : Node) : List Op → Option (Node × List StagedOp)
  | [] => some (t, [])
  | op :: rest =>
    match stageOp t op with
    | none => none
    | some (t1, s) =>
      match stageOps t1 rest with
      | none => none
      | some (t2, ss) => some (t2, s :: ss)

/-- Forward replay of a staged group in insertion order (redo path). -/
def replayRedo (g : List StagedOp) (t : Node) : Node :=
  g.foldl applyRedo t

/-- Inverse replay of a staged group in reverse insertion order
(abort and undo paths). -/
def replayUndo (g : List StagedOp) (t : Node) : Node :=
  g.foldr (fun s u => applyUndo u s) t

theorem stageOp_redo (t t1 : Node) (op : Op) (s : StagedOp)
    (h : stageOp t op = some (t1, s)) : applyRedo t s = t1 := by
  cases op with
  | setProperty key v =>
    simp [stageOp] at h
    obtain ⟨h1, h2⟩ := h
    rw [← h1, ← h2]
    rfl
  | addChild n idxOpt =>
    simp only [stageOp] at h
    split at h
    · simp at h
      obtain ⟨h1, h2⟩ := h
      rw [← h1, ← h2]
      rfl
    · simp at h
  | removeChild idx =>
    simp only [stageOp] at h
    split at h
    · simp at h
      obtain ⟨h1, h2⟩ := h
      rw [← h1, ← h2]
      rfl
    · simp at h
  | moveChild src dst =>
    simp only [stageOp] at h
    split at h
    · split at h
      · simp at h
        obtain ⟨h1, h2⟩ := h
        rw [← h1, ← h2]
        rfl
      · simp at h
    · simp at h

theorem stageOp_undo (t t1 : Node) (op : Op) (s : StagedOp)
    (h : stageOp t op = some (t1, s)) : applyUndo t1 s = t := by
  obtain ⟨ty, ps, cs⟩ := t
  cases op with
  | setProperty key v =>
    simp [stageOp] at h
    obtain ⟨h1, h2⟩ := h
    subst h1
    subst h2
    cases hg : getProp key ps with
    | none =>
      simp [applyUndo, Node.withProps, Node.props, Node.type, Node.children, hg]
      exact eraseProp_setProp_of_absent key v ps hg
    | some w =>
      simp [applyUndo, Node.withProps, Node.props, Node.type, Node.children, hg]
      exact setProp_setProp_of_present key v w ps hg
  | addChild n idxOpt =>
    simp only [stageOp] at h
    split at h
    · simp at h
      obtain ⟨h1, h2⟩ := h
      subst h1
      subst h2
      simp [applyUndo, Node.withChildren, Node.props, Node.type, Node.children,
        List.eraseIdx_insertIdx]
    · simp at h
  | removeChild idx =>
    simp only [stageOp] at h
    split at h
    case h_1 c hc =>
      simp at h
      obtain ⟨h1, h2⟩ := h
      subst h1
      subst h2
      simp [applyUndo, Node.withChildren, Node.props, Node.type, Node.children]
      exact insertIdx_eraseIdx_self c cs idx hc
    case h_2 => simp at h
  | moveChild src dst =>
    simp only [stageOp] at h
    split at h
    case h_1 c hc =>
      split at h
      case isTrue hdst =>
        simp at h
        obtain ⟨h1, h2⟩ := h
        subst h1
        subst h2
        have hsrc : src < cs.length := by
          rcases List.getElem?_eq_some.mp hc with ⟨hlt, _⟩
          exact hlt
        simp [applyUndo, Node.withChildren, Node.props, Node.type, Node.children]
        exact moveIdx_moveIdx cs src dst hsrc hdst
      case isFalse => simp at h
    case h_2 => simp at h

theorem stageOps_redo : ∀ (ops : List Op) (t t2 : Node) (ss : List StagedOp),
    stageOps t ops = some (t2, ss) → replayRedo ss t = t2 := by
  intro ops
  induction ops with
  | nil =>
    intro t t2 ss h
    simp [stageOps] at h
    obtain ⟨h1, h2⟩ := h
    subst h1
    subst h2
    rfl
  | cons op rest ih =>
    intro t t2 ss h
    cases hop : stageOp t op with
    | none => simp [stageOps, hop] at h
    | some p =>
      obtain ⟨t1, s⟩ := p
      cases hrest : stageOps t1 rest with
      | none => simp [stageOps, hop, hrest] at h
      | some q =>
        obtain ⟨t3, ss1⟩ := q
        simp [stageOps, hop, hrest] at h
        obtain ⟨h1, h2⟩ := h
        subst h1
        subst h2
        show replayRedo ss1 (applyRedo t s) = t3
        rw [stageOp_redo t t1 op s hop]
        exact ih t1 t3 ss1 hrest

theorem stageOps_undo : ∀ (ops : List Op) (t t2 : Node) (ss : List StagedOp),
    stageOps t ops = some (t2, ss) → replayUndo ss t2 = t := by
  intro ops
  induction ops with
  | nil =>
    intro t t2 ss h
    simp [stageOps] at h
    obtain ⟨h1, h2⟩ := h
    subst h1
    subst h2
    rfl
  | cons op rest ih =>
    intro t t2 ss h
    cases hop : stageOp t op with
    | none => simp [stageOps, hop] at h
    | some p =>
      obtain ⟨t1, s⟩ := p
      cases hrest : stageOps t1 rest with
      | none => simp [stageOps, hop, hrest] at h
      | some q =>
        obtain ⟨t3, ss1⟩ := q
        simp [stageOps, hop, hrest] at h
        obtain ⟨h1, h2⟩ := h
        subst h1
        subst h2
        show applyUndo (replayUndo ss1 t3) s = t
        rw [ih t1 t3 ss1 hrest]
        exact stageOp_undo t t1 op s hop

theorem stageOps_length : ∀ (ops : List Op) (t t2 : Node) (ss : List StagedOp),
    stageOps t ops = some (t2, ss) → ss.length = ops.length := by
  intro ops
  induction ops with
  | nil =>
    intro t t2 ss h
    simp [stageOps] at h
    rw [h.2]
    rfl
  | cons op rest ih =>
    intro t t2 ss h
    cases hop : stageOp t op with
    | none => simp [stageOps, hop] at h
    | some p =>
      obtain ⟨t1, s⟩ := p
      cases hrest : stageOps t1 rest with
      | none => simp [stageOps, hop, hrest] at h
      | some q =>
        obtain ⟨t3, ss1⟩ := q
        simp [stageOps, hop, hrest] at h
        rw [← h.2, List.length_cons, ih t1 t3 ss1 hrest, List.length_cons]

theorem replayRedo_append (a b : List StagedOp) (t : Node) :
    replayRedo (a ++ b) t = replayRedo b (replayRedo a t) := by
  simp [replayRedo, List.foldl_append]

theorem replayUndo_append (a b : List StagedOp) (t : Node) :
    replayUndo (a ++ b) t = replayUndo a (replayUndo b t) := by
  simp [replayUndo, List.foldr_append]

/-- Modelled from the spec: the UndoManager holds an undo stack and a redo
stack of operation groups (most recent first), an enabled flag, and keeps
track of whether a group is currently accumulating (beginNewTransaction
closes it; the next recorded commit opens a fresh one). Group display names
play no role in the verified behaviour and are omitted. -/
structure UndoManager where
  undoStack : List (List StagedOp)
  redoStack : List (List StagedOp)
  groupOpen : Bool
  enabled : Bool
  deriving DecidableEq

/-- A fresh manager: empty history, enabled, no group accumulating. -/
def UndoManager.new : UndoManager := ⟨[], [], false, true⟩

/-- Modelled from the spec: beginNewTransaction closes the currently
accumulating group; subsequent bound commits append to a new one. -/
def UndoManager.beginNewTransaction (m : UndoManager) : UndoManager :=
  { m with groupOpen := false }

/-- Modelled from the spec: a recorded commit appends its inverse-operation
group to the current undo group, creating one if none is open, and performing
any new work truncates the redo stack (strictly linear history). -/
def UndoManager.appendGroup (m : UndoManager) (g : List StagedOp) : UndoManager :=
  if m.groupOpen then
    match m.undoStack with
    | top :: rest => { m with undoStack := (top ++ g) :: rest, redoStack := [] }
    | [] => { m with undoStack := [g], redoStack := [], groupOpen := true }
  else
    { m with undoStack := g :: m.undoStack, redoStack := [], groupOpen := true }

/-- The mutable state a transaction acts on: the live tree and the undo
manager it may be bound to. Listener broadcast is modelled by the event
lists the operations return. -/
structure World where
  tree : Node
  mgr : UndoManager
  deriving DecidableEq

/-- Modelled from the spec: a Transaction is a staged batch of operations
against one tree, optionally bound to an UndoManager, with a finalized flag
set by commit, abort or the auto-commit on destruction. -/
structure Txn where
  staged : List StagedOp
  bound : Bool
  finalized : Bool
  deriving DecidableEq

/-- beginTransaction: a fresh transaction with nothing staged. `bound` is
true when an UndoManager was passed. -/
def beginTransaction (bound : Bool) : Txn :=
  ⟨[], bound, false⟩

/-- The error taxonomy of the spec. -/
inductive DataTreeError where
  | invalidNode
  | alreadyAttached
  | indexOutOfRange
  | transactionAlreadyFinalized
  | keyNotFound
  deriving DecidableEq

/-- Staging one operation on an open transaction: optimistic apply to the
live tree, inverse data captured, notification queued (the queued
notification is determined by the staged entry). -/
def txnStage (txn : Txn) (w : World) (op : Op) : Option (Txn × World) :=
  match stageOp w.tree op with
  | none => none
  | some (t1, s) => some ({ txn with staged := txn.staged ++ [s] }, { w with tree := t1 })

/-- Staging a list of operations in order. -/
def txnStageMany (txn : Txn) (w : World) : List Op → Option (Txn × World)
  | [] => some (txn, w)
  | op :: rest =>
    match txnStage txn w op with
    | none => none
    | some (txn1, w1) => txnStageMany txn1 w1 rest

/-- Modelled from the spec: commit fires one queued notification per staged
operation, in staging order, each reporting the live tree; if the
transaction is bound to an enabled UndoManager it appends the staged group
to the manager's current undo group. A second commit after finalization
fails with TransactionAlreadyFinalized. -/
def commitTxn (txn : Txn) (w : World) :
    Except DataTreeError (Txn × World × List Event) :=
  if txn.finalized then .error .transactionAlreadyFinalized
  else
    let mgr1 := if txn.bound && w.mgr.enabled then w.mgr.appendGroup txn.staged else w.mgr
    .ok ({ txn with finalized := true }, { w with mgr := mgr1 },
      txn.staged.map (eventOfRedo w.tree))

/-- Modelled from the spec: abort replays the queued inverses on the live
tree in reverse staging order, with no listener notification and no
undo-manager interaction; a second abort after finalization fails with
TransactionAlreadyFinalized. -/
def abortTxn (txn : Txn) (w : World) :
    Except DataTreeError (Txn × World × List Event) :=
  if txn.finalized then .error .transactionAlreadyFinalized
  else .ok ({ txn with finalized := true }, { w with tree := replayUndo txn.staged w.tree }, [])

/-- Modelled from the spec: destroying a transaction on which neither commit
nor abort was called auto-commits it; destroying a finalized transaction
does nothing. -/
def dropTxn (txn : Txn) (w : World) : Txn × World × List Event :=
  match commitTxn txn w with
  | .ok r => r
  | .error _ => (txn, w, [])

/-- Modelled from the spec: undo is a no-op (none, i.e. returns false) on an
empty stack or when disabled; otherwise it pops the most recent group,
applies its inverses in reverse insertion order through the same
apply+notify path (listeners fire), and pushes the group onto the redo
stack. -/
def undo (w : World) : Option (World × List Event) :=
  if w.mgr.enabled then
    match w.mgr.undoStack with
    | [] => none
    | g :: rest =>
      let t1 := replayUndo g w.tree
      let m1 : UndoManager :=
        ⟨rest, g :: w.mgr.redoStack, false, w.mgr.enabled⟩
      some (⟨t1, m1⟩, g.reverse.map (eventOfUndo t1))
  else none

/-- Modelled from the spec: redo pops from the redo stack, reapplies the
forward operations in insertion order (listeners fire), and pushes the group
back onto the undo stack. -/
def redo (w : World) : Option (World × List Event) :=
  if w.mgr.enabled then
    match w.mgr.redoStack with
    | [] => none
    | g :: rest =>
      let t1 := replayRedo g w.tree
      let m1 : UndoManager :=
        ⟨g :: w.mgr.undoStack, rest, false, w.mgr.enabled⟩
      some (⟨t1, m1⟩, g.map (eventOfRedo t1))
  else none

/-- One whole bound transaction: begin, stage every operation, commit. -/
def runTxn (ops : List Op) (w : World) : Option World :=
  match txnStageMany (beginTransaction true) w ops with
  | none => none
  | some (txn1, w1) =>
    match commitTxn txn1 w1 with
    | .ok (_, w2, _) => some w2
    | .error _ => none

/-- A sequence of bound transactions, committed one after the other. -/
def runTxns : List (List Op) → World → Option World
  | [], w => some w
  | ops :: rest, w =>
    match runTxn ops w with
    | none => none
    | some w1 => runTxns rest w1

theorem txnStageMany_spec : ∀ (ops : List Op) (txn : Txn) (w : World) (txn1 : Txn) (w1 : World),
    txnStageMany txn w ops = some (txn1, w1) →
      ∃ ss, stageOps w.tree ops = some (w1.tree, ss) ∧ txn1.staged = txn.staged ++ ss ∧
        w1.mgr = w.mgr ∧ txn1.bound = txn.bound ∧ txn1.finalized = txn.finalized := by
  intro ops
  induction ops with
  | nil =>
    intro txn w txn1 w1 h
    simp [txnStageMany] at h
    obtain ⟨h1, h2⟩ := h
    subst h1
    subst h2
    exact ⟨[], by simp [stageOps]⟩
  | cons op rest ih =>
    intro txn w txn1 w1 h
    cases hop : stageOp w.tree op with
    | none => simp [txnStageMany, txnStage, hop] at h
    | some p =>
      obtain ⟨t1, s⟩ := p
      simp only [txnStageMany, txnStage, hop] at h
      obtain ⟨ss1, hstage, hstaged, hmgr, hbound, hfin⟩ :=
        ih { txn with staged := txn.staged ++ [s] } { w with tree := t1 } txn1 w1 h
      refine ⟨s :: ss1, ?_, ?_, hmgr, hbound, hfin⟩
      · simp only [stageOps, hop]
        simp only [show ({ w with tree := t1 } : World).tree = t1 from rfl] at hstage
        rw [hstage]
      · rw [hstaged]
        simp

/-- What one committed bound transaction does to the world. -/
theorem runTxn_spec (ops : List Op) (w w2 : World) (h : runTxn ops w = some w2) :
    ∃ ss, stageOps w.tree ops = some (w2.tree, ss) ∧
      w2.mgr = if w.mgr.enabled then w.mgr.appendGroup ss else w.mgr := by
  cases hstage : txnStageMany (beginTransaction true) w ops with
  | none => simp [runTxn, hstage] at h
  | some p =>
    obtain ⟨txn1, w1⟩ := p
    obtain ⟨ss, hs, hstaged, hmgr, hbound, hfin⟩ :=
      txnStageMany_spec ops (beginTransaction true) w txn1 w1 hstage
    simp [beginTransaction] at hstaged hbound hfin
    simp only [runTxn, hstage, commitTxn, hfin, Bool.false_eq_true, if_false] at h
    simp only [hbound, Bool.true_and] at h
    simp at h
    subst h
    refine ⟨ss, ?_, ?_⟩
    · simpa [hstaged] using hs
    · rw [hmgr, hstaged]

/-- Every bound transaction committed while a group is accumulating extends
that same (coalescing) group; the concatenated group replays forward from
the starting tree to the final tree and backward from the final tree to the
starting tree. -/
theorem runTxns_open_group :
    ∀ (txns : List (List Op)) (t : Node) (top : List StagedOp)
      (rest : List (List StagedOp)) (w1 : World),
      runTxns txns ⟨t, ⟨top :: rest, [], true, true⟩⟩ = some w1 →
        ∃ more t1, w1 = ⟨t1, ⟨(top ++ more) :: rest, [], true, true⟩⟩ ∧
          replayRedo more t = t1 ∧ replayUndo more t1 = t := by
  intro txns
  induction txns with
  | nil =>
    intro t top rest w1 h
    simp [runTxns] at h
    exact ⟨[], t, by simp [← h, replayRedo, replayUndo]⟩
  | cons ops txs ih =>
    intro t top rest w1 h
    cases hrun : runTxn ops ⟨t, ⟨top :: rest, [], true, true⟩⟩ with
    | none => simp [runTxns, hrun] at h
    | some wmid =>
      obtain ⟨tmid, mmid⟩ := wmid
      obtain ⟨ss, hs, hmgr⟩ := runTxn_spec ops _ _ hrun
      simp [UndoManager.appendGroup] at hmgr
      subst hmgr
      simp only [runTxns, hrun] at h
      obtain ⟨more2, t2, hw1, hredo, hundo⟩ := ih tmid (top ++ ss) rest w1 h
      refine ⟨ss ++ more2, t2, ?_, ?_, ?_⟩
      · rw [hw1, List.append_assoc]
      · rw [replayRedo_append, stageOps_redo ops t tmid ss hs, hredo]
      · rw [replayUndo_append, hundo]
        exact stageOps_undo ops t tmid ss hs

/-- The elements of a list up to and including the first one satisfying cb
(all of them when none does): the sequence of arguments an early-exiting
scan passes to its callback. -/
def takeUntilIncl {α : Type} (cb : α → Bool) : List α → List α
  | [] => []
  | c :: rest => if cb c then [c] else c :: takeUntilIncl cb rest

/-- Modelled from the spec: forEachChild visits direct children in order;
the callback returning true stops iteration immediately. The result is the
list of nodes the callback was invoked on, one invocation per element, in
invocation order. -/
def visitChildList (cb : Node → Bool) : List Node → List Node
  | [] => []
  | c :: rest => if cb c then [c] else c :: visitChildList cb rest

/-- forEachChild on a node: scan of its direct children. -/
def forEachChildVisited (cb : Node → Bool) (t : Node) : List Node :=
  visitChildList cb t.children

/-- The pre-order listing of a forest: each root, then its subtree. -/
def preorderList : List Node → List Node
  | [] => []
  | (Node.mk ty ps cs) :: rest => Node.mk ty ps cs :: (preorderList cs ++ preorderList rest)

/-- Modelled from the spec: the forEachDescendant engine over a forest -
each root, then recursively its subtree, in pre-order, threading the
early-exit flag; returns the visited nodes in invocation order and whether
the callback stopped the walk. -/
def visitDescList (cb : Node → Bool) : List Node → List Node × Bool
  | [] => ([], false)
  | (Node.mk ty ps cs) :: rest =>
    if cb (Node.mk ty ps cs) then ([Node.mk ty ps cs], true)
    else
      match visitDescList cb cs with
      | (v, true) => (Node.mk ty ps cs :: v, true)
      | (v, false) =>
        match visitDescList cb rest with
        | (v2, st) => (Node.mk ty ps cs :: (v ++ v2), st)

/-- forEachDescendant on a node: pre-order walk of the subtree beneath it,
the node itself excluded. -/
def forEachDescVisited (cb : Node → Bool) (t : Node) : List Node :=
  (visitDescList cb t.children).1

theorem visitChildList_eq (cb : Node → Bool) :
    ∀ l : List Node, visitChildList cb l = takeUntilIncl cb l := by
  intro l
  induction l with
  | nil => rfl
  | cons c rest ih => by_cases hc : cb c <;> simp [visitChildList, takeUntilIncl, hc, ih]

theorem takeUntilIncl_all_false {α : Type} (cb : α → Bool) :
    ∀ l : List α, (∀ c ∈ l, cb c = false) → takeUntilIncl cb l = l := by
  intro l
  induction l with
  | nil => intro _; rfl
  | cons c rest ih =>
    intro h
    have hc := h c (by simp)
    simp [takeUntilIncl, hc]
    exact ih fun x hx => h x (by simp [hx])

theorem takeUntilIncl_append_of_any {α : Type} (cb : α → Bool) :
    ∀ a b : List α, a.any cb = true →
      takeUntilIncl cb (a ++ b) = takeUntilIncl cb a := by
  intro a
  induction a with
  | nil => intro b h; simp at h
  | cons c rest ih =>
    intro b h
    by_cases hc : cb c
    · simp [takeUntilIncl, hc]
    · simp [hc] at h
      simp [takeUntilIncl, hc, ih b (by simpa using h)]

theorem takeUntilIncl_append_of_none {α : Type} (cb : α → Bool) :
    ∀ a b : List α, a.any cb = false →
      takeUntilIncl cb (a ++ b) = a ++ takeUntilIncl cb b := by
  intro a
  induction a with
  | nil => intro b _; rfl
  | cons c rest ih =>
    intro b h
    simp at h
    have hr : rest.any cb = false := by
      rw [List.any_eq_false]
      intro x hx
      simp [h.2 x hx]
    simp [takeUntilIncl, h.1, ih b hr]

theorem visitDescList_eq (cb : Node → Bool) (l : List Node) :
    visitDescList cb l = (takeUntilIncl cb (preorderList l), (preorderList l).any cb) := by
  induction l using visitDescList.induct cb with
  | case1 => simp [visitDescList, preorderList, takeUntilIncl]
  | case2 ty ps cs rest hc =>
    simp [visitDescList, preorderList, takeUntilIncl, hc]
  | case3 ty ps cs rest hc v hv ih =>
    have hpair : (takeUntilIncl cb (preorderList cs), (preorderList cs).any cb) = (v, true) := by
      rw [← ih]
      exact hv
    have hv1 : takeUntilIncl cb (preorderList cs) = v := congrArg Prod.fst hpair
    have hv2 : (preorderList cs).any cb = true := congrArg Prod.snd hpair
    simp [visitDescList, hc, hv, preorderList, takeUntilIncl,
      takeUntilIncl_append_of_any cb _ _ hv2, hv1, hv2]
  | case4 ty ps cs rest hc v hv v2 st hv2 ih1 ih2 =>
    have hpair1 : (takeUntilIncl cb (preorderList cs), (preorderList cs).any cb)
        = (v, false) := by
      rw [← ih1]
      exact hv
    have hpair2 : (takeUntilIncl cb (preorderList rest), (preorderList rest).any cb)
        = (v2, st) := by
      rw [← ih2]
      exact hv2
    have ha : (preorderList cs).any cb = false := congrArg Prod.snd hpair1
    have hveq : takeUntilIncl cb (preorderList cs) = v := congrArg Prod.fst hpair1
    have hv2a : takeUntilIncl cb (preorderList rest) = v2 := congrArg Prod.fst hpair2
    have hv2b : (preorderList rest).any cb = st := congrArg Prod.snd hpair2
    have hvl : v = preorderList cs := by
      rw [← hveq]
      exact takeUntilIncl_all_false cb _ (by
        intro x hx
        have := List.any_eq_false.mp ha x hx
        simpa using this)
    simp [visitDescList, hc, hv, hv2, preorderList, takeUntilIncl,
      takeUntilIncl_append_of_none cb _ _ ha, ha, hveq, hv2a, hv2b, hvl]

theorem takeUntilIncl_take {α : Type} (cb : α → Bool) :
    ∀ (l : List α) (j : Nat) (c : α), (∀ x ∈ l.take j, cb x = false) →
      l[j]? = some c → cb c = true →
        takeUntilIncl cb l = l.take (j + 1) := by
  intro l
  induction l with
  | nil => intro j c _ hj; simp at hj
  | cons a rest ih =>
    intro j c hfalse hj hc
    cases j with
    | zero =>
      simp at hj
      subst hj
      simp [takeUntilIncl, hc]
    | succ n =>
      rw [List.getElem?_cons_succ] at hj
      have ha : cb a = false := hfalse a (by simp)
      simp only [takeUntilIncl, ha, Bool.false_eq_true, if_false, List.take_succ_cons]
      rw [ih n c (fun x hx => hfalse x (by simp [hx])) hj hc]

/-- Modelled from the spec: the Python iteration protocol over a DataTree is
an index-based iterator - next() yields the child at the current index and
advances, and iteration stops when the index passes the child count. The
child-count fuel only bounds the recursion; the index test stops first. -/
def iterAux (t : Node) : Nat → Nat → List DataTree
  | 0, _ => []
  | fuel + 1, i =>
    match t.children[i]? with
    | none => []
    | some c => .valid c :: iterAux t fuel (i + 1)

/-- The full sequence `for child in tree` yields. -/
def pyIterate (t : Node) : List DataTree :=
  iterAux t t.children.length 0

theorem iterAux_eq (t : Node) :
    ∀ (fuel i : Nat), t.children.length ≤ i + fuel →
      iterAux t fuel i = (t.children.drop i).map DataTree.valid := by
  intro fuel
  induction fuel with
  | zero =>
    intro i h
    rw [Nat.add_zero] at h
    rw [List.drop_eq_nil_of_le h]
    rfl
  | succ n ih =>
    intro i h
    cases hc : t.children[i]? with
    | none =>
      have hge : t.children.length ≤ i := by
        by_contra hlt
        push_neg at hlt
        rw [List.getElem?_eq_getElem hlt] at hc
        simp at hc
      rw [List.drop_eq_nil_of_le hge]
      simp [iterAux, hc]
    | some c =>
      have hlt : i < t.children.length := by
        by_contra hge
        push_neg at hge
        rw [List.getElem?_eq_none hge] at hc
        simp at hc
      have hdrop : t.children.drop i = c :: t.children.drop (i + 1) := by
        rw [List.drop_eq_getElem_cons hlt]
        rw [List.getElem?_eq_getElem hlt] at hc
        simp at hc
        rw [hc]
      rw [hdrop]
      simp only [iterAux, hc, List.map_cons]
      rw [ih (i + 1) (by omega)]

theorem pyIterate_eq (t : Node) : pyIterate t = t.children.map DataTree.valid := by
  rw [pyIterate, iterAux_eq t t.children.length 0 (by omega)]
  rfl

/-- Modelled from the spec: isEquivalentTo is structural and value equality
(type, properties, children recursively), ignoring object identity,
listeners and undo bindings - all of which live outside the node value. -/
def Node.isEquivalentTo (a b : Node) : Bool :=
  Node.beq a b

theorem Node.isEquivalentTo_refl (a : Node) : a.isEquivalentTo a = true :=
  (Node.beq_iff a a).mpr rfl

theorem Node.isEquivalentTo_iff (a b : Node) : a.isEquivalentTo b = true ↔ a = b :=
  Node.beq_iff a b

/-- A store of independently owned root trees (handles are indices): the
model of separate DataTree objects whose storage never overlaps. -/
def storeClone (h : Nat) (s : List Node) : List Node :=
  match s[h]? with
  | some n => s ++ [n]
  | none => s

/-- Committing a transaction on the tree at handle h rewrites only that
entry of the store. -/
def storeCommit (h : Nat) (ops : List Op) (s : List Node) : Option (List Node) :=
  match s[h]? with
  | none => none
  | some n =>
    match stageOps n ops with
    | none => none
    | some (n1, _) => some (s.set h n1)

/-- Modelled from the spec: the generic tagged-value (JSON-like) target of
serialization. Numbers keep the integer/float distinction that the
type-tagged encoding relies on; the float payload is its 64-bit pattern. -/
inductive Json where
  | null
  | bool (b : Bool)
  | num (n : Int)
  | fnum (bits : Nat)
  | str (s : String)
  | arr (xs : List Json)
  | obj (fields : List (String × Json))

/-- Modelled from the spec: each property value serializes to a type-tagged
value preserving the original Value variant (integers never become floats
or strings). -/
def valueToJson : Value → Json
  | .null => .obj [("type", .str "null"), ("value", .null)]
  | .bool b => .obj [("type", .str "bool"), ("value", .bool b)]
  | .int n => .obj [("type", .str "int"), ("value", .num n)]
  | .float bits => .obj [("type", .str "float"), ("value", .fnum bits)]
  | .str s => .obj [("type", .str "string"), ("value", .str s)]
  | .bytes bs =>
    .obj [("type", .str "bytes"), ("value", .arr (bs.map fun b => .num (Int.ofNat b)))]

/-- One serialized byte back to a byte. -/
def jsonToByte : Json → Option Nat
  | .num n => if n < 0 then none else some n.toNat
  | _ => none

/-- A serialized byte array back to bytes. -/
def jsonToBytes : List Json → Option (List Nat)
  | [] => some []
  | j :: rest =>
    match jsonToByte j, jsonToBytes rest with
    | some b, some bs => some (b :: bs)
    | _, _ => none

/-- Decoding a type-tagged value; a tag/payload mismatch is rejected. -/
def valueFromJson : Json → Option Value
  | .obj [("type", .str tag), ("value", payload)] =>
    match tag, payload with
    | "null", .null => some .null
    | "bool", .bool b => some (.bool b)
    | "int", .num n => some (.int n)
    | "float", .fnum bits => some (.float bits)
    | "string", .str s => some (.str s)
    | "bytes", .arr js => (jsonToBytes js).map .bytes
    | _, _ => none
  | _ => none

mutual

/-- Modelled from the spec: createJson maps a tree to an object with a type
field holding the identifier string, a properties field mapping each key to
its type-tagged value in insertion order, and a children field holding the
ordered array of recursively serialized children. -/
def createJson : Node → Json
  | .mk ty ps cs =>
    .obj [("type", .str ty),
      ("properties", .obj (ps.map fun p => (p.1, valueToJson p.2))),
      ("children", .arr (createJsonList cs))]

/-- The ordered serialization of a child list. -/
def createJsonList : List Node → List Json
  | [] => []
  | c :: rest => createJson c :: createJsonList rest

end

/-- Decoding a serialized property map. -/
def parseProps : List (String × Json) → Option (List (String × Value))
  | [] => some []
  | (k, j) :: rest =>
    match valueFromJson j, parseProps rest with
    | some v, some vs => some ((k, v) :: vs)
    | _, _ => none

mutual

/-- Modelled from the spec: fromJson parses the three-field object shape
createJson emits (type, properties, children); any other shape is rejected
and surfaces as the invalid tree at the API level. -/
def fromJsonNode : Json → Option Node
  | .obj [("type", .str ty), ("properties", .obj pfields), ("children", .arr cjs)] =>
    match parseProps pfields, fromJsonList cjs with
    | some ps, some cs => some (.mk ty ps cs)
    | _, _ => none
  | _ => none

/-- Decoding an ordered array of serialized children. -/
def fromJsonList : List Json → Option (List Node)
  | [] => some []
  | j :: rest =>
    match fromJsonNode j, fromJsonList rest with
    | some n, some ns => some (n :: ns)
    | _, _ => none

end

/-- The DataTree-level fromJson of the Python API. -/
def fromJson (j : Json) : DataTree :=
  match fromJsonNode j with
  | some n => .valid n
  | none => .invalid

theorem jsonToBytes_roundtrip :
    ∀ bs : List Nat, jsonToBytes (bs.map fun b => Json.num (Int.ofNat b)) = some bs := by
  intro bs
  induction bs with
  | nil => rfl
  | cons b rest ih =>
    have hb : jsonToByte (Json.num (Int.ofNat b)) = some b := by
      simp only [jsonToByte]
      rw [if_neg (by simp : ¬ Int.ofNat b < 0)]
      simp
    simp only [List.map_cons, jsonToBytes, hb, ih]

theorem valueFromJson_valueToJson (v : Value) : valueFromJson (valueToJson v) = some v := by
  cases v with
  | null => rfl
  | bool b => rfl
  | int n => rfl
  | float bits => rfl
  | str s => rfl
  | bytes bs =>
    simp only [valueToJson, valueFromJson, jsonToBytes_roundtrip bs]
    rfl

theorem parseProps_roundtrip :
    ∀ ps : List (String × Value),
      parseProps (ps.map fun p => (p.1, valueToJson p.2)) = some ps := by
  intro ps
  induction ps with
  | nil => rfl
  | cons p rest ih =>
    obtain ⟨k, v⟩ := p
    simp only [List.map_cons, parseProps, valueFromJson_valueToJson v, ih]

mutual

theorem fromJsonNode_createJson : ∀ t : Node, fromJsonNode (createJson t) = some t
  | .mk ty ps cs => by
    simp only [createJson, fromJsonNode, parseProps_roundtrip ps,
      fromJsonList_createJsonList cs]

theorem fromJsonList_createJsonList : ∀ l : List Node, fromJsonList (createJsonList l) = some l
  | [] => rfl
  | c :: rest => by
    simp only [createJsonList, fromJsonList, fromJsonNode_createJson c,
      fromJsonList_createJsonList rest]

end

/-- Whether a notification has the shape and payload the spec mandates for
the staged operation it reports: setProperty yields propertyChanged with the
same key, addChild yields childAdded with the same node, removeChild yields
childRemoved carrying the vacated index, and moveChild yields its single
(implementation-chosen) childAdded. -/
def eventMatchesOp : Op → Event → Bool
  | .setProperty key _, .propertyChanged _ k => key == k
  | .addChild n _, .childAdded _ c => Node.beq n c
  | .removeChild idx, .childRemoved _ _ i => idx == i
  | .moveChild _ _, .childAdded _ _ => true
  | _, _ => false

theorem stageOp_event (t t1 live : Node) (op : Op) (s : StagedOp)
    (h : stageOp t op = some (t1, s)) : eventMatchesOp op (eventOfRedo live s) = true := by
  cases op with
  | setProperty key v =>
    simp [stageOp] at h
    rw [← h.2]
    simp [eventOfRedo, eventMatchesOp]
  | addChild n idxOpt =>
    simp only [stageOp] at h
    split at h
    · simp at h
      rw [← h.2]
      simp [eventOfRedo, eventMatchesOp, Node.beq_iff]
    · simp at h
  | removeChild idx =>
    simp only [stageOp] at h
    split at h
    · simp at h
      rw [← h.2]
      simp [eventOfRedo, eventMatchesOp]
    · simp at h
  | moveChild src dst =>
    simp only [stageOp] at h
    split at h
    · split at h
      · simp at h
        rw [← h.2]
        simp [eventOfRedo, eventMatchesOp]
      · simp at h
    · simp at h

theorem stageOps_event_at (live : Node) :
    ∀ (ops : List Op) (t t2 : Node) (ss : List StagedOp),
      stageOps t ops = some (t2, ss) →
        ∀ (i : Nat) (op : Op) (s : StagedOp), ops[i]? = some op → ss[i]? = some s →
          eventMatchesOp op (eventOfRedo live s) = true := by
  intro ops
  induction ops with
  | nil =>
    intro t t2 ss h i op s hop hs
    simp at hop
  | cons op0 rest ih =>
    intro t t2 ss h i op s hop hs
    cases hstage : stageOp t op0 with
    | none => simp [stageOps, hstage] at h
    | some p =>
      obtain ⟨t1, s0⟩ := p
      cases hrest : stageOps t1 rest with
      | none => simp [stageOps, hstage, hrest] at h
      | some q =>
        obtain ⟨t3, ss1⟩ := q
        simp [stageOps, hstage, hrest] at h
        obtain ⟨h1, h2⟩ := h
        subst h1
        subst h2
        cases i with
        | zero =>
          simp at hop hs
          subst hop
          subst hs
          exact stageOp_event t t1 live _ _ hstage
        | succ n =>
          rw [List.getElem?_cons_succ] at hop hs
          exact ih t1 t3 ss1 hrest n op s hop hs

/-- A sequence of transactions committed against the same store handle. -/
def storeCommitMany (h : Nat) : List (List Op) → List Node → Option (List Node)
  | [], s => some s
  | ops :: rest, s =>
    match storeCommit h ops s with
    | none => none
    | some s1 => storeCommitMany h rest s1

theorem storeCommit_frame (h i : Nat) (ops : List Op) (s s2 : List Node)
    (hne : h ≠ i) (hc : storeCommit h ops s = some s2) : s2[i]? = s[i]? := by
  cases hs : s[h]? with
  | none => simp [storeCommit, hs] at hc
  | some n =>
    cases hstage : stageOps n ops with
    | none => simp [storeCommit, hs, hstage] at hc
    | some p =>
      obtain ⟨n1, ss⟩ := p
      simp [storeCommit, hs, hstage] at hc
      rw [← hc]
      exact List.getElem?_set_ne hne

theorem storeCommitMany_frame (h i : Nat) (hne : h ≠ i) :
    ∀ (muts : List (List Op)) (s s2 : List Node),
      storeCommitMany h muts s = some s2 → s2[i]? = s[i]? := by
  intro muts
  induction muts with
  | nil =>
    intro s s2 hc
    simp [storeCommitMany] at hc
    rw [hc]
  | cons ops rest ih =>
    intro s s2 hc
    cases h1 : storeCommit h ops s with
    | none => simp [storeCommitMany, h1] at hc
    | some s1 =>
      simp [storeCommitMany, h1] at hc
      rw [ih s1 s2 hc, storeCommit_frame h i ops s s1 hne h1]

/-- C3: for every valid DataTree t, including trees with zero properties and
zero children and trees whose string property values contain Unicode (the
quantification over Node covers every String), fromJson(createJson(t)) is a
valid tree and is equivalent to t. The conjunct
fromJson (createJson t) = DataTree.valid t is exact reconstruction, which
subsumes preservation of each Value variant tag (integers never become
floats or strings), of the type Identifier, and of child order. -/
theorem C3_json_roundtrip_preserves_tree (t : Node) :
    (fromJson (createJson t)).isValid = true
  ∧ fromJson (createJson t) = DataTree.valid t
  ∧ ∃ t2, fromJson (createJson t) = DataTree.valid t2 ∧ t2.isEquivalentTo t = true := by
  have hnode := fromJsonNode_createJson t
  refine ⟨?_, ?_, t, ?_, Node.isEquivalentTo_refl t⟩ <;>
    simp [fromJson, hnode, DataTree.isValid]

/-- C5: forEachChild visits direct children in order and forEachDescendant
visits the subtree below the node (the node itself excluded) in pre-order,
and when the callback first returns true on the k-th invocation the callback
is invoked exactly k times. With k = j + 1: the j nodes visited before
returned false and the node at position j returns true; the visited sequence
is then the first j + 1 nodes in order and its length (one invocation per
element) is exactly j + 1. When the callback never returns true the whole
sequence is visited in order. -/
theorem C5_forEach_order_and_early_exit (t : Node) (cb : Node → Bool) :
    ((∀ c ∈ t.children, cb c = false) → forEachChildVisited cb t = t.children)
  ∧ ((∀ c ∈ preorderList t.children, cb c = false) →
      forEachDescVisited cb t = preorderList t.children)
  ∧ (∀ (j : Nat) (c : Node), (∀ x ∈ t.children.take j, cb x = false) →
      t.children[j]? = some c → cb c = true →
        forEachChildVisited cb t = t.children.take (j + 1) ∧
          (forEachChildVisited cb t).length = j + 1)
  ∧ (∀ (j : Nat) (c : Node), (∀ x ∈ (preorderList t.children).take j, cb x = false) →
      (preorderList t.children)[j]? = some c → cb c = true →
        forEachDescVisited cb t = (preorderList t.children).take (j + 1) ∧
          (forEachDescVisited cb t).length = j + 1) := by
  have hchild : forEachChildVisited cb t = takeUntilIncl cb t.children := by
    rw [forEachChildVisited, visitChildList_eq]
  have hdesc : forEachDescVisited cb t = takeUntilIncl cb (preorderList t.children) := by
    rw [forEachDescVisited, visitDescList_eq]
  refine ⟨?_, ?_, ?_, ?_⟩
  · intro hall
    rw [hchild]
    exact takeUntilIncl_all_false cb _ hall
  · intro hall
    rw [hdesc]
    exact takeUntilIncl_all_false cb _ hall
  · intro j c hfalse hj hc
    have hlt : j < t.children.length := by
      by_contra hge
      push_neg at hge
      rw [List.getElem?_eq_none hge] at hj
      simp at hj
    have heq : forEachChildVisited cb t = t.children.take (j + 1) := by
      rw [hchild]
      exact takeUntilIncl_take cb t.children j c hfalse hj hc
    refine ⟨heq, ?_⟩
    rw [heq, List.length_take, Nat.min_eq_left (by omega)]
  · intro j c hfalse hj hc
    have hlt : j < (preorderList t.children).length := by
      by_contra hge
      push_neg at hge
      rw [List.getElem?_eq_none hge] at hj
      simp at hj
    have heq : forEachDescVisited cb t = (preorderList t.children).take (j + 1) := by
      rw [hdesc]
      exact takeUntilIncl_take cb (preorderList t.children) j c hfalse hj hc
    refine ⟨heq, ?_⟩
    rw [heq, List.length_take, Nat.min_eq_left (by omega)]

/-- The three-child parent of the spec's moveChild scenario. -/
def childSample : Node :=
  Node.mk "Parent" [] [Node.mk "First" [] [], Node.mk "Second" [] [], Node.mk "Third" [] []]

/-- C6: for in-range indices, moveChild(i, j) preserves getNumChildren and
the multiset of child identities (a permutation), changing only the order;
and on children of types First, Second, Third, moveChild(1, 0) yields the
order Second, First, Third. -/
theorem C6_moveChild_preserves_children (t : Node) (i j : Nat)
    (hi : i < t.numChildren) (hj : j < t.numChildren) :
    (Node.moveChild i j t).numChildren = t.numChildren
  ∧ List.Perm (Node.moveChild i j t).children t.children
  ∧ (Node.moveChild 1 0 childSample).children.map Node.type =
      ["Second", "First", "Third"] := by
  refine ⟨?_, ?_, ?_⟩
  · exact moveIdx_length t.children i j hi hj
  · exact moveIdx_perm t.children i j hi hj
  · rfl

theorem C6_witness :
    (Node.moveChild 1 0 childSample).numChildren = childSample.numChildren
  ∧ List.Perm (Node.moveChild 1 0 childSample).children childSample.children
  ∧ (Node.moveChild 1 0 childSample).children.map Node.type =
      ["Second", "First", "Third"] :=
  C6_moveChild_preserves_children childSample 1 0 (by decide) (by decide)

/-- C9: iterating a DataTree with the Python iteration protocol yields
exactly getNumChildren() items, each a valid DataTree, in child order - the
same sequence getChild(0) .. getChild(n-1) returns. -/
theorem C9_python_iteration_matches_children (t : Node) :
    (pyIterate t).length = t.numChildren
  ∧ (∀ d ∈ pyIterate t, d.isValid = true)
  ∧ (∀ i : Nat, i < t.numChildren → (pyIterate t)[i]? = some (t.getChild i)) := by
  have hiter := pyIterate_eq t
  refine ⟨?_, ?_, ?_⟩
  · rw [hiter, List.length_map]
    rfl
  · intro d hd
    rw [hiter] at hd
    obtain ⟨c, _, hc⟩ := List.mem_map.mp hd
    rw [← hc]
    rfl
  · intro i hilt
    rw [hiter, List.getElem?_map, List.getElem?_eq_getElem hilt]
    simp [Node.getChild, List.getElem?_eq_getElem hilt]

/-- C2: for every transaction staging any N operations against a valid
DataTree, abort() succeeds (it returns ok - rollback is total), fires zero
listener notifications (the event list is empty), performs no undo-manager
interaction (the manager component is exactly the one from before the
transaction began), and leaves the tree in exactly the state it had before
beginTransaction. -/
theorem C2_abort_total_rollback (t0 : Node) (m : UndoManager) (b : Bool) (ops : List Op)
    (txn1 : Txn) (w1 : World)
    (h : txnStageMany (beginTransaction b) ⟨t0, m⟩ ops = some (txn1, w1)) :
    abortTxn txn1 w1 =
      .ok ({ txn1 with finalized := true }, ⟨t0, m⟩, ([] : List Event)) := by
  obtain ⟨ss, hstage, hstaged, hmgr, hbound, hfin⟩ :=
    txnStageMany_spec ops (beginTransaction b) ⟨t0, m⟩ txn1 w1 h
  simp [beginTransaction] at hstaged hfin
  have htree : replayUndo txn1.staged w1.tree = t0 := by
    rw [hstaged]
    exact stageOps_undo ops t0 w1.tree ss hstage
  obtain ⟨t1, m1⟩ := w1
  simp at hmgr htree
  rw [abortTxn, if_neg (by simp [hfin])]
  rw [hmgr, htree]

def c2tree : Node := Node.mk "Test" [] []

def c2txn : Txn := ⟨[StagedOp.setProperty "key" (Value.str "value") none], false, false⟩

def c2world : World := ⟨Node.mk "Test" [("key", Value.str "value")] [], UndoManager.new⟩

theorem C2_witness :
    abortTxn c2txn c2world =
      .ok ({ c2txn with finalized := true }, ⟨c2tree, UndoManager.new⟩, ([] : List Event)) :=
  C2_abort_total_rollback c2tree UndoManager.new false
    [Op.setProperty "key" (Value.str "value")] c2txn c2world rfl

/-- C4: for every transaction staging N operations, commit() succeeds and
fires exactly N individual listener notifications, one per staged operation,
in staging order: the i-th notification corresponds to the i-th staged
operation and has the mandated shape and payload - propertyChanged(tree, key)
for setProperty, childAdded(parent, child) for addChild,
childRemoved(parent, child, formerIndex) for removeChild (and the single
implementation-chosen childAdded for moveChild). The Event type has exactly
these three shapes, so no bulk or batch event exists in the model. -/
theorem C4_commit_fires_one_notification_per_op (t0 : Node) (m : UndoManager) (b : Bool)
    (ops : List Op) (txn1 : Txn) (w1 : World)
    (h : txnStageMany (beginTransaction b) ⟨t0, m⟩ ops = some (txn1, w1)) :
    ∃ txn2 w2 events, commitTxn txn1 w1 = .ok (txn2, w2, events)
  ∧ events.length = ops.length
  ∧ (∀ i : Nat, i < ops.length →
      ∃ op e, ops[i]? = some op ∧ events[i]? = some e ∧ eventMatchesOp op e = true) := by
  obtain ⟨ss, hstage, hstaged, hmgr, hbound, hfin⟩ :=
    txnStageMany_spec ops (beginTransaction b) ⟨t0, m⟩ txn1 w1 h
  simp [beginTransaction] at hstaged hfin
  have hlen : ss.length = ops.length := stageOps_length ops t0 w1.tree ss hstage
  refine ⟨{ txn1 with finalized := true },
    { w1 with mgr := if txn1.bound && w1.mgr.enabled then w1.mgr.appendGroup txn1.staged
        else w1.mgr },
    txn1.staged.map (eventOfRedo w1.tree), ?_, ?_, ?_⟩
  · rw [commitTxn, if_neg (by simp [hfin])]
  · rw [hstaged, List.length_map, hlen]
  · intro i hilt
    have hio : ops[i]? = some (ops[i]) := List.getElem?_eq_getElem hilt
    have hsslt : i < ss.length := by omega
    have his : ss[i]? = some (ss[i]) := List.getElem?_eq_getElem hsslt
    refine ⟨ops[i], eventOfRedo w1.tree (ss[i]), hio, ?_, ?_⟩
    · rw [hstaged, List.getElem?_map, his]
      rfl
    · exact stageOps_event_at w1.tree ops t0 w1.tree ss hstage i (ops[i]) (ss[i]) hio his

def c4tree : Node := Node.mk "Root" [] []

def c4txn : Txn := ⟨[StagedOp.setProperty "prop1" (Value.str "value1") none], true, false⟩

def c4world : World := ⟨Node.mk "Root" [("prop1", Value.str "value1")] [], UndoManager.new⟩

theorem C4_witness :
    ∃ txn2 w2 events, commitTxn c4txn c4world = .ok (txn2, w2, events)
  ∧ events.length = [Op.setProperty "prop1" (Value.str "value1")].length
  ∧ (∀ i : Nat, i < [Op.setProperty "prop1" (Value.str "value1")].length →
      ∃ op e, [Op.setProperty "prop1" (Value.str "value1")][i]? = some op ∧
        events[i]? = some e ∧ eventMatchesOp op e = true) :=
  C4_commit_fires_one_notification_per_op c4tree UndoManager.new true
    [Op.setProperty "prop1" (Value.str "value1")] c4txn c4world rfl

/-- C8: destroying (dropping) a transaction on which neither commit nor
abort was called auto-commits it: dropTxn returns exactly what commit
returns, and the dropped transaction is finalized. After a transaction is
finalized by commit, by abort, or by the auto-commit, any further commit()
or abort() on it fails with TransactionAlreadyFinalized, in any world. -/
theorem C8_auto_commit_and_finalization (txn : Txn) (w w2 : World)
    (h : txn.finalized = false) :
    commitTxn txn w = .ok (dropTxn txn w)
  ∧ (dropTxn txn w).1.finalized = true
  ∧ (∀ r, commitTxn txn w = .ok r → r.1.finalized = true)
  ∧ (∀ r, abortTxn txn w = .ok r → r.1.finalized = true)
  ∧ (∀ txn1 : Txn, txn1.finalized = true →
      commitTxn txn1 w2 = .error .transactionAlreadyFinalized
    ∧ abortTxn txn1 w2 = .error .transactionAlreadyFinalized) := by
  have hcommit : commitTxn txn w =
      .ok ({ txn with finalized := true },
        { w with mgr := if txn.bound && w.mgr.enabled then w.mgr.appendGroup txn.staged
            else w.mgr },
        txn.staged.map (eventOfRedo w.tree)) := by
    rw [commitTxn, if_neg (by simp [h])]
  refine ⟨?_, ?_, ?_, ?_, ?_⟩
  · rw [dropTxn, hcommit]
  · rw [dropTxn, hcommit]
  · intro r hr
    rw [hcommit] at hr
    simp at hr
    subst hr
    rfl
  · intro r hr
    rw [abortTxn, if_neg (by simp [h])] at hr
    simp at hr
    subst hr
    rfl
  · intro txn1 h1
    exact ⟨by rw [commitTxn, if_pos h1], by rw [abortTxn, if_pos h1]⟩

def c8txn : Txn := ⟨[StagedOp.setProperty "key" (Value.str "value") none], false, false⟩

def c8world : World := ⟨Node.mk "Test" [("key", Value.str "value")] [], UndoManager.new⟩

theorem C8_witness :
    commitTxn c8txn c8world = .ok (dropTxn c8txn c8world)
  ∧ (dropTxn c8txn c8world).1.finalized = true
  ∧ (∀ r, commitTxn c8txn c8world = .ok r → r.1.finalized = true)
  ∧ (∀ r, abortTxn c8txn c8world = .ok r → r.1.finalized = true)
  ∧ (∀ txn1 : Txn, txn1.finalized = true →
      commitTxn txn1 c8world = .error .transactionAlreadyFinalized
    ∧ abortTxn txn1 c8world = .error .transactionAlreadyFinalized) :=
  C8_auto_commit_and_finalization c8txn c8world c8world rfl

/-- C10: a committed transaction that set one previously absent property is
one undo step (the manager had no group accumulating); each undo() of that
step fires exactly one notification, a propertyChanged for that tree - the
reversal that removes the property is reported as propertyChanged, not as a
distinct removal event - and each redo() fires exactly one more
propertyChanged. Every registered listener receives exactly this event list,
synchronously. -/
theorem C10_undo_redo_fire_propertyChanged (t0 : Node) (m0 : UndoManager)
    (key : String) (v : Value) (w1 : World)
    (hopen : m0.groupOpen = false) (hen : m0.enabled = true)
    (habs : getProp key t0.props = none)
    (hrun : runTxn [Op.setProperty key v] ⟨t0, m0⟩ = some w1) :
    ∃ wu, undo w1 = some (wu, [Event.propertyChanged wu.tree key]) ∧ wu.tree = t0
  ∧ ∃ wr, redo wu = some (wr, [Event.propertyChanged wr.tree key]) ∧ wr.tree = w1.tree := by
  obtain ⟨us, rs, go, en⟩ := m0
  simp at hopen hen
  subst hopen
  subst hen
  have hstage : stageOp t0 (Op.setProperty key v) =
      some (t0.withProps (setProp key v t0.props), .setProperty key v none) := by
    simp [stageOp, habs]
  have hw1 : w1 = ⟨t0.withProps (setProp key v t0.props),
      ⟨[StagedOp.setProperty key v none] :: us, [], true, true⟩⟩ := by
    simp [runTxn, txnStageMany, txnStage, hstage, commitTxn, beginTransaction,
      UndoManager.appendGroup] at hrun
    rw [← hrun]
  subst hw1
  have htu : replayUndo [StagedOp.setProperty key v none]
      (t0.withProps (setProp key v t0.props)) = t0 := by
    show applyUndo (t0.withProps (setProp key v t0.props)) (.setProperty key v none) = t0
    obtain ⟨ty, ps, cs⟩ := t0
    simp [applyUndo, Node.withProps, Node.props, Node.type, Node.children]
    exact eraseProp_setProp_of_absent key v ps habs
  have hredo1 : replayRedo [StagedOp.setProperty key v none] t0 =
      t0.withProps (setProp key v t0.props) := rfl
  refine ⟨⟨t0, ⟨us, [[StagedOp.setProperty key v none]], false, true⟩⟩, ?_, rfl, ?_⟩
  · simp [undo, htu, eventOfUndo]
  · refine ⟨⟨t0.withProps (setProp key v t0.props),
      ⟨[StagedOp.setProperty key v none] :: us, [], false, true⟩⟩, ?_, rfl⟩
    simp [redo, hredo1, eventOfRedo]

def c10tree : Node := Node.mk "Root" [] []

def c10world : World :=
  ⟨Node.mk "Root" [("key", Value.str "value")] [],
    ⟨[[StagedOp.setProperty "key" (Value.str "value") none]], [], true, true⟩⟩

theorem C10_witness :
    ∃ wu, undo c10world = some (wu, [Event.propertyChanged wu.tree "key"]) ∧ wu.tree = c10tree
  ∧ ∃ wr, redo wu = some (wr, [Event.propertyChanged wr.tree "key"]) ∧
      wr.tree = c10world.tree :=
  C10_undo_redo_fire_propertyChanged c10tree UndoManager.new "key" (Value.str "value")
    c10world rfl rfl rfl rfl

/-- C1: all transactions committed between two explicit beginNewTransaction
calls on the same manager coalesce into a single undo step: starting from
any manager state with no group accumulating (the state beginNewTransaction
leaves), committing any non-empty sequence of transactions - N staged
operations across M transactions - and then calling undo() once reverts the
tree to exactly its starting state, and one subsequent redo() restores
exactly the tree state all the commits had produced. -/
theorem C1_transactions_coalesce_into_one_undo_step (t0 : Node) (m0 : UndoManager)
    (txns : List (List Op)) (w1 : World)
    (hopen : m0.groupOpen = false) (hen : m0.enabled = true) (hne : txns ≠ [])
    (hrun : runTxns txns ⟨t0, m0⟩ = some w1) :
    ∃ wu eu, undo w1 = some (wu, eu) ∧ wu.tree = t0
  ∧ ∃ wr er, redo wu = some (wr, er) ∧ wr.tree = w1.tree := by
  obtain ⟨us, rs, go, en⟩ := m0
  simp at hopen hen
  subst hopen
  subst hen
  cases txns with
  | nil => exact absurd rfl hne
  | cons ops txs =>
    cases hrun0 : runTxn ops ⟨t0, ⟨us, rs, false, true⟩⟩ with
    | none => simp [runTxns, hrun0] at hrun
    | some wmid =>
      obtain ⟨tmid, mmid⟩ := wmid
      obtain ⟨ss, hs, hmgr⟩ := runTxn_spec ops _ _ hrun0
      simp [UndoManager.appendGroup] at hmgr
      subst hmgr
      simp only [runTxns, hrun0] at hrun
      obtain ⟨more, t1, hw1, hredo, hundo⟩ := runTxns_open_group txs tmid ss us w1 hrun
      subst hw1
      have hut : replayUndo (ss ++ more) t1 = t0 := by
        rw [replayUndo_append, hundo]
        exact stageOps_undo ops t0 tmid ss hs
      have hrt : replayRedo (ss ++ more) t0 = t1 := by
        rw [replayRedo_append, stageOps_redo ops t0 tmid ss hs, hredo]
      refine ⟨⟨t0, ⟨us, [ss ++ more], false, true⟩⟩,
        (ss ++ more).reverse.map (eventOfUndo t0), ?_, rfl, ?_⟩
      · rw [undo]
        simp [hut]
      · refine ⟨⟨t1, ⟨(ss ++ more) :: us, [], false, true⟩⟩,
          (ss ++ more).map (eventOfRedo t1), ?_, rfl⟩
        rw [redo]
        simp [hrt]

def c1tree : Node := Node.mk "Root" [] []

def c1txns : List (List Op) :=
  [[Op.setProperty "a" (Value.str "1")], [Op.setProperty "b" (Value.str "2")]]

def c1world : World :=
  ⟨Node.mk "Root" [("a", Value.str "1"), ("b", Value.str "2")] [],
    ⟨[[StagedOp.setProperty "a" (Value.str "1") none,
       StagedOp.setProperty "b" (Value.str "2") none]], [], true, true⟩⟩

theorem C1_witness :
    ∃ wu eu, undo c1world = some (wu, eu) ∧ wu.tree = c1tree
  ∧ ∃ wr er, redo wu = some (wr, er) ∧ wr.tree = c1world.tree :=
  C1_transactions_coalesce_into_one_undo_step c1tree UndoManager.new c1txns c1world
    rfl rfl (by simp [c1txns]) rfl

/-- C7: cloning the tree at handle h of a store of independently owned trees
yields a new entry that is equivalent to the source immediately
(isEquivalentTo holds), and after any sequence of transactions subsequently
committed against the source handle, the clone entry is exactly unchanged
(and hence still equivalent to the original source value): the clone shares
no property map or child list storage with the source - mutating the source
rewrites only the source's entry. -/
theorem C7_clone_equivalent_and_independent (s : List Node) (h : Nat) (n : Node)
    (hh : s[h]? = some n) :
    ∃ cl, (storeClone h s)[s.length]? = some cl ∧ cl.isEquivalentTo n = true
  ∧ ∀ (muts : List (List Op)) (s2 : List Node),
      storeCommitMany h muts (storeClone h s) = some s2 →
        s2[s.length]? = some cl ∧ cl.isEquivalentTo n = true := by
  have hclone : storeClone h s = s ++ [n] := by
    rw [storeClone, hh]
  have hlt : h < s.length := by
    rcases List.getElem?_eq_some.mp hh with ⟨hlt, _⟩
    exact hlt
  have hne : h ≠ s.length := by omega
  refine ⟨n, ?_, Node.isEquivalentTo_refl n, ?_⟩
  · rw [hclone]
    exact List.getElem?_concat_length s n
  · intro muts s2 hc
    refine ⟨?_, Node.isEquivalentTo_refl n⟩
    rw [storeCommitMany_frame h s.length hne muts (storeClone h s) s2 hc, hclone]
    exact List.getElem?_concat_length s n

def c7orig : Node :=
  Node.mk "Original" [("key", Value.str "original_value")] [Node.mk "Child" [] []]

theorem C7_witness :
    ∃ cl, (storeClone 0 [c7orig])[[c7orig].length]? = some cl
  ∧ cl.isEquivalentTo c7orig = true
  ∧ ∀ (muts : List (List Op)) (s2 : List Node),
      storeCommitMany 0 muts (storeClone 0 [c7orig]) = some s2 →
        s2[[c7orig].length]? = some cl ∧ cl.isEquivalentTo c7orig = true :=
  C7_clone_equivalent_and_independent [c7orig] 0 c7orig rfl

end Yup
